import Mathlib

/-!
Shallow embedding of the streaming time-series engine of the
Performance-Critical Data Visualization Dashboard.

Numbers: JavaScript floats are embedded as exact rationals (ℚ); timestamps
are integers (ℤ, milliseconds).  Each definition is translated from the
named source function.
-/

namespace Dashboard

/-- One timestamped scalar measurement with a category tag
(`DataPoint` of src/src/lib/types.ts; the open metadata map carries no
information used by any claim and is omitted). -/
structure DataPoint where
  timestamp : Int
  value : ℚ
  category : String
deriving Repr, DecidableEq

/-- The filter criteria record taken by `filterData`
(src/src/components/controls/FilterPanel.tsx, lines 244-270).  Every field is
optional, matching the TypeScript optional fields. -/
structure FilterOptions where
  categories : Option (List String)
  minValue : Option ℚ
  maxValue : Option ℚ
  timeRange : Option (Int × Int)
deriving Repr, DecidableEq

/-- `filterData` (FilterPanel.tsx lines 244-270): a single-pass filter.  A
sample is dropped when a present `categories` list does not contain its
category, when its value is below a present `minValue` or above a present
`maxValue`, or when its timestamp falls outside a present `timeRange`. -/
def filterData (data : List DataPoint) (filters : FilterOptions) : List DataPoint :=
  data.filter (fun p =>
    (match filters.categories with
     | some cats => cats.contains p.category
     | none => true)
    && (match filters.minValue with
        | some m => !decide (p.value < m)
        | none => true)
    && (match filters.maxValue with
        | some m => !decide (m < p.value)
        | none => true)
    && (match filters.timeRange with
        | some r => !(decide (p.timestamp < r.1) || decide (r.2 < p.timestamp))
        | none => true))

/-- The provider-level filter state (`FilterOptions` as used by
src/src/components/providers/DataProvider.tsx): `categories` is a plain list
(the UI selection), the rest optional. -/
structure ProviderFilters where
  categories : List String
  minValue : Option ℚ
  maxValue : Option ℚ
  timeRange : Option (Int × Int)
deriving Repr, DecidableEq

/-- The filter stage of `filteredData` (DataProvider.tsx lines 39-56): when
the selected category list is non-empty it is passed to `filterData`;
otherwise the `categories` field is omitted from the criteria, and when no
criterion at all is present the data is returned untouched. -/
def applyFilters (data : List DataPoint) (f : ProviderFilters) : List DataPoint :=
  if 0 < f.categories.length then
    filterData data ⟨some f.categories, f.minValue, f.maxValue, f.timeRange⟩
  else if f.minValue.isSome || f.maxValue.isSome || f.timeRange.isSome then
    filterData data ⟨none, f.minValue, f.maxValue, f.timeRange⟩
  else
    data

/-- Spec-side predicate for claim C1: the value lies within
[minValue, maxValue] and the timestamp within [start, end], each bound
unbounded when absent. -/
def inRanges (mv Mv : Option ℚ) (tr : Option (Int × Int)) (p : DataPoint) : Prop :=
  (∀ m ∈ mv, m ≤ p.value) ∧ (∀ m ∈ Mv, p.value ≤ m) ∧
    (∀ r ∈ tr, r.1 ≤ p.timestamp ∧ p.timestamp ≤ r.2)

instance (mv Mv : Option ℚ) (tr : Option (Int × Int)) (p : DataPoint) :
    Decidable (inRanges mv Mv tr p) := by
  unfold inRanges; infer_instance

/-- Data-space viewport (`Viewport` of src/src/lib/types.ts). -/
structure Viewport where
  xMin : ℚ
  xMax : ℚ
  yMin : ℚ
  yMax : ℚ
deriving Repr, DecidableEq

/-- Pixel-space chart rectangle (`ChartBounds` of src/src/lib/types.ts). -/
structure ChartBounds where
  x : ℚ
  y : ℚ
  width : ℚ
  height : ℚ
deriving Repr, DecidableEq

/-- `Math.min(...values)` over a non-empty argument list: fold of `min` over
the tail starting from the head (the `[]` case is a sentinel, never reached
by the callers below). -/
def foldlMin : List ℚ → ℚ
  | [] => 0
  | v :: vs => vs.foldl min v

/-- `Math.max(...values)` over a non-empty argument list. -/
def foldlMax : List ℚ → ℚ
  | [] => 0
  | v :: vs => vs.foldl max v

/-- `calculateViewport` (src/src/lib/canvasUtils.ts lines 33-63).  `now`
stands for `Date.now()`, used only by the empty-input fallback.  Note the
non-empty branch pads the raw extrema by `range * padding` and floors `yMin`
at 0; there is no branch substituting an epsilon when a range is zero. -/
def calculateViewport (now : Int) (data : List DataPoint) (padding : ℚ) : Viewport :=
  match data with
  | [] => ⟨(now : ℚ) - 3600000, (now : ℚ), 0, 100⟩
  | _ :: _ =>
    let timestamps := data.map (fun p => ((p.timestamp : ℚ)))
    let values := data.map (fun p => p.value)
    let xMin := foldlMin timestamps
    let xMax := foldlMax timestamps
    let yMin := foldlMin values
    let yMax := foldlMax values
    let xRange := xMax - xMin
    let yRange := yMax - yMin
    ⟨xMin - xRange * padding, xMax + xRange * padding,
      max 0 (yMin - yRange * padding), yMax + yRange * padding⟩

/-- `dataToCanvas` (canvasUtils.ts lines 6-14): affine map from data space to
pixel space, y inverted. -/
def dataToCanvas (p : DataPoint) (bounds : ChartBounds) (vp : Viewport) : ℚ × ℚ :=
  (bounds.x + ((p.timestamp : ℚ) - vp.xMin) / (vp.xMax - vp.xMin) * bounds.width,
   bounds.y + bounds.height - (p.value - vp.yMin) / (vp.yMax - vp.yMin) * bounds.height)

/-- `canvasToData` (canvasUtils.ts lines 19-28): the inverse affine map. -/
def canvasToData (canvasX canvasY : ℚ) (bounds : ChartBounds) (vp : Viewport) : ℚ × ℚ :=
  (vp.xMin + (canvasX - bounds.x) / bounds.width * (vp.xMax - vp.xMin),
   vp.yMax - (canvasY - bounds.y) / bounds.height * (vp.yMax - vp.yMin))

/-- The visible index range of `useVirtualization`
(src/unnamed/part_003, lines 25-36).  `start` and `stop` mirror the
`start`/`end` fields of the returned object. -/
structure VirtualRange where
  start : Int
  stop : Int
deriving Repr, DecidableEq

/-- `visibleRange` of `useVirtualization`: raw start index is
`floor(scrollTop / itemHeight)`, raw end index is clamped to the last item,
then overscan is applied and both are clamped again. -/
def visibleRange (len : Nat) (scrollTop itemHeight containerHeight : ℚ)
    (overscan : Nat) : VirtualRange :=
  let s : Int := ⌊scrollTop / itemHeight⌋
  let e : Int := min ((len : Int) - 1) ⌈(scrollTop + containerHeight) / itemHeight⌉
  ⟨max 0 (s - (overscan : Int)), min ((len : Int) - 1) (e + (overscan : Int))⟩

/-- `totalHeight` of `useVirtualization` (part_003 line 47). -/
def totalHeight (len : Nat) (itemHeight : ℚ) : ℚ := (len : ℚ) * itemHeight

/-- `offsetY` of `useVirtualization` (part_003 line 50). -/
def offsetY (len : Nat) (scrollTop itemHeight containerHeight : ℚ)
    (overscan : Nat) : ℚ :=
  ((visibleRange len scrollTop itemHeight containerHeight overscan).start : ℚ) * itemHeight

/-- `updated.slice(-n)` of JavaScript for a non-negative count `n`: the last
`n` elements, except that `slice(-0)` is `slice(0)`, the whole array. -/
def sliceLast {α : Type} (n : Nat) (l : List α) : List α :=
  if n = 0 then l else l.drop (l.length - n)

/-- One buffer update of `useDataStream` (src/unnamed/part_004): both the
streaming tick (lines 40-54, a one-element batch) and `addDataPoints`
(lines 78-97) concatenate the new points and then apply a single
`slice(-maxDataPoints)` trim when the capacity is exceeded. -/
def appendBatch {α : Type} (maxSize : Nat) (prev batch : List α) : List α :=
  let updated := prev ++ batch
  if maxSize < updated.length then sliceLast maxSize updated else updated

/-- A sequence of buffer updates, each one batch append. -/
def runBatches {α : Type} (maxSize : Nat) (start : List α)
    (batches : List (List α)) : List α :=
  batches.foldl (fun acc b => appendBatch maxSize acc b) start

/-- The strided sampling loop `for (let i = 0; i < data.length; i += step)`
shared by `useChartRenderer.render` (src/src/hooks/useChartRenderer.ts lines
107-120) and `ScatterPlot` (src/src/components/charts/ScatterPlot.tsx line
88): keeps the head, then recurses after skipping the next `s - 1`
elements, so exactly the indices 0, s, 2s, ... are kept. -/
def takeStride {α : Type} (s : Nat) : List α → List α
  | [] => []
  | x :: xs => x :: takeStride s (xs.drop (s - 1))
termination_by l => l.length
decreasing_by
  simp only [List.length_drop, List.length_cons]
  omega

/-- The LOD decimation: stride `max(1, floor(length / targetDensity))`
(useChartRenderer.ts line 107 with targetDensity 2000, ScatterPlot.tsx line
88 with targetDensity 10000), applied positionally from index 0. -/
def decimate {α : Type} (seq : List α) (targetDensity : Nat) : List α :=
  takeStride (max 1 (seq.length / targetDensity)) seq

/-- `Math.round(q * 100) / 100` — rounding to two decimal places.
`Math.round` rounds half toward positive infinity: `round x = ⌊x + 1/2⌋`. -/
def round2 (q : ℚ) : ℚ := ((⌊q * 100 + 1 / 2⌋ : Int) : ℚ) / 100

/-- `Math.floor(timestamp / periodMs) * periodMs` (FilterPanel.tsx line 211):
the left-closed bucket boundary.  Real division followed by `Math.floor` is
integer floor division. -/
def bucketKey (periodMs t : Int) : Int := Int.fdiv t periodMs * periodMs

/-- One aggregated output point of `aggregateData` (FilterPanel.tsx lines
225-235): the primary `value` carries the rounded mean, and the metadata
object carries `count`, `min`, `max` and the exact `avg`. -/
structure AggPoint where
  timestamp : Int
  value : ℚ
  category : String
  count : Nat
  minValue : ℚ
  maxValue : ℚ
  avg : ℚ
deriving Repr, DecidableEq

/-- One step of the bucket-grouping loop (FilterPanel.tsx lines 210-216): a
JavaScript `Map` keeps keys in first-insertion order, so the accumulator is
an association list; a known key has the point appended to its group, an
unknown key is appended at the end with a singleton group. -/
def insertPoint (k : Int) (p : DataPoint) :
    List (Int × List DataPoint) → List (Int × List DataPoint)
  | [] => [(k, [p])]
  | (k₀, ps) :: rest =>
    if k₀ = k then (k₀, ps ++ [p]) :: rest
    else (k₀, ps) :: insertPoint k p rest

/-- The grouping pass of `aggregateData`: fold the points left-to-right into
the insertion-ordered bucket map. -/
def groupBuckets (periodMs : Int) (data : List DataPoint) :
    List (Int × List DataPoint) :=
  data.foldl (fun acc p => insertPoint (bucketKey periodMs p.timestamp) p acc) []

/-- The per-bucket aggregation (FilterPanel.tsx lines 219-236): mean of the
member values (rounded to two decimals in the primary `value` field, exact
in `avg`), extrema via `Math.min`/`Math.max`, the first member's category,
and the member count. -/
def aggregateBucket (k : Int) (pts : List DataPoint) : AggPoint :=
  let values := pts.map (fun p => p.value)
  let avgValue := values.sum / (values.length : ℚ)
  ⟨k, round2 avgValue, ((pts.head?.map (fun p => p.category)).getD ""),
    pts.length, foldlMin values, foldlMax values, avgValue⟩

/-- The output ordering of `aggregateData`:
`sort((a, b) => a.timestamp - b.timestamp)`. -/
def aggLE (a b : AggPoint) : Prop := a.timestamp ≤ b.timestamp

instance : DecidableRel aggLE :=
  fun a b => inferInstanceAs (Decidable (a.timestamp ≤ b.timestamp))

instance : IsTotal AggPoint aggLE := ⟨fun a b => Int.le_total a.timestamp b.timestamp⟩

instance : IsTrans AggPoint aggLE := ⟨fun _ _ _ hab hbc => le_trans hab hbc⟩

/-- `aggregateData` (FilterPanel.tsx lines 200-239): early return on empty
input, otherwise group into time buckets, aggregate each bucket, and sort
ascending by bucket start timestamp. -/
def aggregateData (data : List DataPoint) (periodMs : Int) : List AggPoint :=
  match data with
  | [] => []
  | _ :: _ =>
    List.insertionSort aggLE
      ((groupBuckets periodMs data).map (fun kp => aggregateBucket kp.1 kp.2))

/-- The members of `data` falling into the bucket starting at `k`. -/
def keyFilter (periodMs k : Int) (data : List DataPoint) : List DataPoint :=
  data.filter (fun p => decide (bucketKey periodMs p.timestamp = k))

/-- The options record of `useDataStream` (src/unnamed/part_004 lines 7-11):
every field optional. -/
structure StreamOptions where
  updateInterval : Option Int
  maxDataPoints : Option Int
  initialCount : Option Int
deriving Repr, DecidableEq

/-- The resolved configuration of `useDataStream` after destructuring. -/
structure StreamConfig where
  updateInterval : Int
  maxDataPoints : Int
  initialCount : Int
deriving Repr, DecidableEq

/-- The construction step of `useDataStream` (part_004 lines 13-23): the
options are destructured with defaults 100 / 10000 / 1000 and used as-is.
The hook body contains no validation and no throw on any path, so the
embedding is total and always returns `Except.ok`. -/
def useDataStreamInit (o : StreamOptions) : Except String StreamConfig :=
  Except.ok ⟨o.updateInterval.getD 100, o.maxDataPoints.getD 10000,
    o.initialCount.getD 1000⟩

/-- `Math.max(lo, Math.min(hi, x))` — the clamp used by
`DataGenerator.generatePoint` (FilterPanel.tsx lines 136-139). -/
def clampQ (lo hi x : ℚ) : ℚ := max lo (min hi x)

/-- The value computation of `DataGenerator.generatePoint` (FilterPanel.tsx
lines 124-150).  The two `Math.random()` draws are the inputs `r1`, `r2`
(any rationals; the uniform draws lie in [0,1)); the sine term
`Math.sin((offset / 1000) * 0.01) * 5` is the input `seasonal` (any
rational; the true term lies in [-5,5]); `trend` is the generator's current
trend state.  The trend is updated and clamped to [-2,2], a base value,
noise and the seasonal term are summed, clamped to the value range and
rounded to two decimals. -/
def generateValue (lo hi trend r1 r2 seasonal : ℚ) : ℚ :=
  let trendNew := max (-2) (min 2 (trend + (r1 - 1 / 2) * (1 / 10)))
  let baseValue := 50 + trendNew * 10
  let noise := (r2 - 1 / 2) * 10
  round2 (clampQ lo hi (baseValue + noise + seasonal))

/-- Invariant of the grouping fold of `aggregateData`: every bucket in the
accumulator holds exactly the already-processed points of its key, in input
order and non-empty; every processed point has its key present; and keys are
distinct. -/
def GoodAcc (periodMs : Int) (processed : List DataPoint)
    (acc : List (Int × List DataPoint)) : Prop :=
  (∀ kp ∈ acc, kp.2 = keyFilter periodMs kp.1 processed ∧ kp.2 ≠ []) ∧
  (∀ p ∈ processed, bucketKey periodMs p.timestamp ∈ acc.map Prod.fst) ∧
  (acc.map Prod.fst).Nodup


/-- Unfolding equation of `takeStride` on the empty list. -/
theorem takeStride_nil {α : Type} (s : Nat) : takeStride s ([] : List α) = [] := by
  rw [takeStride]

/-- Unfolding equation of `takeStride` on a cons cell. -/
theorem takeStride_cons {α : Type} (s : Nat) (x : α) (xs : List α) :
    takeStride s (x :: xs) = x :: takeStride s (xs.drop (s - 1)) := by
  rw [takeStride]

theorem takeStride_getElem?_aux {α : Type} (s : Nat) (hs : 1 ≤ s) :
    ∀ (n : Nat) (l : List α), l.length ≤ n → ∀ j : Nat,
      (takeStride s l)[j]? = l[j * s]? := by
  intro n
  induction n with
  | zero =>
    intro l hl j
    have h0 : l = [] := List.eq_nil_of_length_eq_zero (Nat.le_zero.mp hl)
    subst h0
    simp [takeStride_nil]
  | succ n ihn =>
    intro l hl j
    cases l with
    | nil => simp [takeStride_nil]
    | cons x xs =>
      cases j with
      | zero => simp [takeStride_cons]
      | succ j =>
        have hlen : (xs.drop (s - 1)).length ≤ n := by
          simp only [List.length_drop]
          simp only [List.length_cons] at hl
          omega
        rw [takeStride_cons, List.getElem?_cons_succ, ihn _ hlen j,
          List.getElem?_drop]
        have harith : (j + 1) * s = s - 1 + j * s + 1 := by
          cases s with
          | zero => omega
          | succ t => ring_nf; omega
        rw [harith, List.getElem?_cons_succ]

/-- Index characterization of the stride loop: the j-th output element is
the input element at index `j * s`. -/
theorem takeStride_getElem? {α : Type} (s : Nat) (hs : 1 ≤ s) (l : List α)
    (j : Nat) : (takeStride s l)[j]? = l[j * s]? :=
  takeStride_getElem?_aux s hs l.length l le_rfl j

theorem takeStride_sublist_aux {α : Type} (s : Nat) :
    ∀ (n : Nat) (l : List α), l.length ≤ n → (takeStride s l).Sublist l := by
  intro n
  induction n with
  | zero =>
    intro l hl
    have h0 : l = [] := List.eq_nil_of_length_eq_zero (Nat.le_zero.mp hl)
    subst h0
    simp [takeStride_nil]
  | succ n ihn =>
    intro l hl
    cases l with
    | nil => simp [takeStride_nil]
    | cons x xs =>
      rw [takeStride_cons]
      refine List.Sublist.cons₂ x ?_
      have hlen : (xs.drop (s - 1)).length ≤ n := by
        simp only [List.length_drop]
        simp only [List.length_cons] at hl
        omega
      exact (ihn _ hlen).trans (List.drop_sublist _ _)

/-- The stride loop output is a subsequence of the input. -/
theorem takeStride_sublist {α : Type} (s : Nat) (l : List α) :
    (takeStride s l).Sublist l :=
  takeStride_sublist_aux s l.length l le_rfl

theorem takeStride_length_aux {α : Type} (s : Nat) (hs : 1 ≤ s) :
    ∀ (n : Nat) (l : List α), l.length ≤ n →
      (takeStride s l).length = (l.length + s - 1) / s := by
  intro n
  induction n with
  | zero =>
    intro l hl
    have h0 : l = [] := List.eq_nil_of_length_eq_zero (Nat.le_zero.mp hl)
    subst h0
    rw [takeStride_nil]
    simp [Nat.div_eq_of_lt (show s - 1 < s by omega)]
  | succ n ihn =>
    intro l hl
    cases l with
    | nil =>
      rw [takeStride_nil]
      simp [Nat.div_eq_of_lt (show s - 1 < s by omega)]
    | cons x xs =>
      have hlen : (xs.drop (s - 1)).length ≤ n := by
        simp only [List.length_drop]
        simp only [List.length_cons] at hl
        omega
      rw [takeStride_cons]
      simp only [List.length_cons, ihn _ hlen, List.length_drop]
      have hsum : xs.length + 1 + s - 1 = xs.length + s := by omega
      rw [hsum, Nat.add_div_right _ (show 0 < s by omega)]
      by_cases hcase : s - 1 ≤ xs.length
      · have h1 : xs.length - (s - 1) + s - 1 = xs.length := by omega
        rw [h1]
      · have h1 : xs.length - (s - 1) = 0 := by omega
        rw [h1]
        simp only [Nat.zero_add]
        rw [Nat.div_eq_of_lt (show s - 1 < s by omega),
          Nat.div_eq_of_lt (show xs.length < s by omega)]

/-- Length of the stride loop output: the ceiling of `length / s`. -/
theorem takeStride_length {α : Type} (s : Nat) (hs : 1 ≤ s) (l : List α) :
    (takeStride s l).length = (l.length + s - 1) / s :=
  takeStride_length_aux s hs l.length l le_rfl

/-- C7: with stride `s = max(1, floor(length / d))`, `decimate` outputs
exactly the input elements at indices 0, s, 2s, ... (index
characterization); the output is an order-preserving subsequence of the
input, its length is at most `ceil(length / s)`, and it is non-empty
whenever the input is non-empty (hence never invents a point absent from
the input). -/
theorem C7_decimate {α : Type} (seq : List α) (d : Nat) (hd : 0 < d) :
    (∀ j : Nat, (decimate seq d)[j]? = seq[j * max 1 (seq.length / d)]?) ∧
    (decimate seq d).Sublist seq ∧
    (decimate seq d).length ≤
      (seq.length + max 1 (seq.length / d) - 1) / max 1 (seq.length / d) ∧
    (seq ≠ [] → decimate seq d ≠ []) := by
  have hs : 1 ≤ max 1 (seq.length / d) := le_max_left _ _
  refine ⟨fun j => takeStride_getElem? _ hs seq j, takeStride_sublist _ seq,
    le_of_eq (takeStride_length _ hs seq), ?_⟩
  intro hne
  cases seq with
  | nil => exact absurd rfl hne
  | cons x xs =>
    unfold decimate
    rw [takeStride_cons]
    exact List.cons_ne_nil _ _

/-- Witness for C7 at a concrete sequence and density. -/
theorem C7_decimate_witness :
    (decimate [10, 20, 30, 40, 50, 60] 3).Sublist ([10, 20, 30, 40, 50, 60] : List Nat) :=
  (C7_decimate [10, 20, 30, 40, 50, 60] 3 (by norm_num)).2.1

end Dashboard

namespace Dashboard

/-! ### Theorems -/

/-- C1 counterexample: a filter whose category set is present but empty
rejects every sample.  The sample below satisfies every (absent) value and
time constraint, yet `filterData` with the empty category list drops it, so
`apply` does not keep exactly the samples within the value and time
ranges. -/
theorem C1_counterexample :
    filterData [⟨0, 50, "temperature"⟩] ⟨some [], none, none, none⟩ = [] ∧
    inRanges none none none ⟨0, 50, "temperature"⟩ := by
  constructor
  · rfl
  · simp [inRanges]

/-- C1 (amended): an empty category selection imposes no constraint at the
provider level — `filteredData` omits the `categories` field when the
selection is empty — and the result keeps exactly the samples whose value
lies within [minValue, maxValue] and whose timestamp lies within
[start, end], each bound unbounded when absent, conjunctively.  (The raw
`filterData` treats a present-but-empty category list as rejecting every
sample; absence of the field is the no-constraint encoding.) -/
theorem C1_empty_categories_no_constraint (data : List DataPoint)
    (mv Mv : Option ℚ) (tr : Option (Int × Int)) :
    applyFilters data ⟨[], mv, Mv, tr⟩ =
      data.filter (fun p => decide (inRanges mv Mv tr p)) := by
  unfold applyFilters
  simp only [List.length_nil, lt_irrefl, if_false]
  by_cases h : mv.isSome || Mv.isSome || tr.isSome
  · rw [if_pos h]
    unfold filterData
    apply List.filter_congr
    intro p _
    rcases mv with _ | m <;> rcases Mv with _ | M <;> rcases tr with _ | r <;>
      · rw [Bool.eq_iff_iff]
        simp [inRanges, not_lt, and_assoc]
  · rw [if_neg h]
    simp only [Bool.or_eq_true, Option.isSome_iff_exists, not_or] at h
    obtain ⟨⟨h1, h2⟩, h3⟩ := h
    have hmv : mv = none := Option.eq_none_iff_forall_not_mem.mpr
      (fun a ha => h1 ⟨a, by simpa using ha⟩)
    have hMv : Mv = none := Option.eq_none_iff_forall_not_mem.mpr
      (fun a ha => h2 ⟨a, by simpa using ha⟩)
    have htr : tr = none := Option.eq_none_iff_forall_not_mem.mpr
      (fun a ha => h3 ⟨a, by simpa using ha⟩)
    subst hmv; subst hMv; subst htr
    rw [eq_comm, List.filter_eq_self]
    intro a _
    simp [inRanges]

/-- C2: contrary to the claim, `calculateViewport` substitutes no epsilon
range.  On the single-sample input below (all timestamps equal, all values
equal) it returns a zero-width viewport on both axes: `xMin = xMax` and
`yMin = yMax`, violating `xMax > xMin` and `yMax > yMin`. -/
theorem C2_zero_width_viewport :
    (calculateViewport 0 [⟨1000, 50, "temperature"⟩] (1 / 10)).xMin =
      (calculateViewport 0 [⟨1000, 50, "temperature"⟩] (1 / 10)).xMax ∧
    (calculateViewport 0 [⟨1000, 50, "temperature"⟩] (1 / 10)).yMin =
      (calculateViewport 0 [⟨1000, 50, "temperature"⟩] (1 / 10)).yMax := by
  unfold calculateViewport
  simp [foldlMin, foldlMax]

/-- C4: `canvasToData` is the exact algebraic inverse of `dataToCanvas`:
for every sample, display rectangle with non-degenerate width and height,
and non-degenerate viewport, the round trip recovers the timestamp and the
value exactly over the rationals. -/
theorem C4_roundtrip (p : DataPoint) (b : ChartBounds) (vp : Viewport)
    (hw : 0 < b.width) (hh : 0 < b.height)
    (hx : vp.xMin < vp.xMax) (hy : vp.yMin < vp.yMax) :
    canvasToData (dataToCanvas p b vp).1 (dataToCanvas p b vp).2 b vp =
      (((p.timestamp : ℚ)), p.value) := by
  have hw2 : b.width ≠ 0 := ne_of_gt hw
  have hh2 : b.height ≠ 0 := ne_of_gt hh
  have hx2 : vp.xMax - vp.xMin ≠ 0 := sub_ne_zero.mpr (ne_of_gt hx)
  have hy2 : vp.yMax - vp.yMin ≠ 0 := sub_ne_zero.mpr (ne_of_gt hy)
  unfold canvasToData dataToCanvas
  simp only [Prod.mk.injEq]
  constructor <;> · field_simp; ring

/-- Witness for C4 at a concrete sample, rectangle and viewport. -/
theorem C4_roundtrip_witness :
    canvasToData (dataToCanvas ⟨5, 7, "a"⟩ ⟨1, 2, 100, 50⟩ ⟨0, 10, 0, 20⟩).1
        (dataToCanvas ⟨5, 7, "a"⟩ ⟨1, 2, 100, 50⟩ ⟨0, 10, 0, 20⟩).2
        ⟨1, 2, 100, 50⟩ ⟨0, 10, 0, 20⟩ = ((((5 : Int) : ℚ)), 7) :=
  C4_roundtrip ⟨5, 7, "a"⟩ ⟨1, 2, 100, 50⟩ ⟨0, 10, 0, 20⟩ (by norm_num) (by norm_num)
    (by norm_num) (by norm_num)

/-- C5: the virtualization window computes
`visibleStart = max(0, floor(scrollOffset / itemExtent) − overscan)`,
`visibleEnd = min(length − 1, ceil((scrollOffset + containerExtent) / itemExtent) + overscan)`,
`totalExtent = length × itemExtent` and
`leadingOffset = visibleStart × itemExtent`; in particular for
length 10000, itemExtent 40, containerExtent 400, overscan 5 and
scrollOffset 2000 it yields 45, 65, 400000 and 1800. -/
theorem C5_virtualization (len : Nat) (so ih ch : ℚ) (ov : Nat) (hih : 0 < ih) :
    (visibleRange len so ih ch ov).start = max 0 (⌊so / ih⌋ - (ov : Int)) ∧
    (visibleRange len so ih ch ov).stop =
      min ((len : Int) - 1) (⌈(so + ch) / ih⌉ + (ov : Int)) ∧
    totalHeight len ih = (len : ℚ) * ih ∧
    offsetY len so ih ch ov = ((max 0 (⌊so / ih⌋ - (ov : Int)) : Int) : ℚ) * ih ∧
    visibleRange 10000 2000 40 400 5 = ⟨45, 65⟩ ∧
    totalHeight 10000 40 = 400000 ∧
    offsetY 10000 2000 40 400 5 = 1800 := by
  have hvr : visibleRange 10000 2000 40 400 5 = ⟨45, 65⟩ := by
    have h1 : ((2000 : ℚ)) / 40 = 50 := by norm_num
    have h2 : (((2000 : ℚ)) + 400) / 40 = 60 := by norm_num
    unfold visibleRange
    rw [h1, h2]
    norm_num
  refine ⟨rfl, ?_, rfl, rfl, hvr, by norm_num [totalHeight], ?_⟩
  · unfold visibleRange
    generalize ⌈(so + ch) / ih⌉ = c
    simp only
    omega
  · unfold offsetY
    rw [hvr]
    norm_num

/-- Witness for C5 at the concrete instance of the claim. -/
theorem C5_virtualization_witness :
    visibleRange 10000 2000 40 400 5 = ⟨45, 65⟩ :=
  (C5_virtualization 10000 2000 40 400 5 (by norm_num)).2.2.2.2.1

/-- C9 counterexample: construction does not fail fast on a non-positive
capacity.  `useDataStream` with `maxDataPoints = 0` (and with `-5`) resolves
successfully, retaining the invalid value, instead of rejecting it with a
configuration error. -/
theorem C9_counterexample :
    useDataStreamInit ⟨none, some 0, none⟩ = Except.ok ⟨100, 0, 1000⟩ ∧
    useDataStreamInit ⟨none, some (-5), none⟩ = Except.ok ⟨100, -5, 1000⟩ := by
  constructor <;> rfl

/-- C9 (amended): construction performs no validation at all — every
`maxDataPoints ≤ 0` is accepted as-is, with no configuration error raised on
any path (and `DataGenerator`'s constructor takes no capacity, bucket-width
or density configuration to validate). -/
theorem C9_no_construction_validation (m : Int) (hm : m ≤ 0) :
    ∃ c : StreamConfig, useDataStreamInit ⟨none, some m, none⟩ = Except.ok c ∧
      c.maxDataPoints = m ∧ c.maxDataPoints ≤ 0 :=
  ⟨⟨100, m, 1000⟩, rfl, rfl, hm⟩

/-- Witness for C9 amended at the concrete capacity 0. -/
theorem C9_no_construction_validation_witness :
    ∃ c : StreamConfig, useDataStreamInit ⟨none, some 0, none⟩ = Except.ok c ∧
      c.maxDataPoints = 0 ∧ c.maxDataPoints ≤ 0 :=
  C9_no_construction_validation 0 (by norm_num)

/-- C10: under the default value range [0, 100], every value produced by
`generatePoint` — for any random draws, trend state and seasonal term — is
clamped into [0, 100] and is an integer multiple of 1/100 (at most two
decimal places). -/
theorem C10_generated_value_bounds (trend r1 r2 seasonal : ℚ) :
    0 ≤ generateValue 0 100 trend r1 r2 seasonal ∧
    generateValue 0 100 trend r1 r2 seasonal ≤ 100 ∧
    ∃ n : Int, generateValue 0 100 trend r1 r2 seasonal = (n : ℚ) / 100 := by
  unfold generateValue
  set raw := 50 + max (-2) (min 2 (trend + (r1 - 1 / 2) * (1 / 10))) * 10 +
    (r2 - 1 / 2) * 10 + seasonal with hraw
  have h0 : 0 ≤ clampQ 0 100 raw := le_max_left _ _
  have h100 : clampQ 0 100 raw ≤ 100 := max_le (by norm_num) (min_le_left _ _)
  unfold round2
  refine ⟨?_, ?_, ⟨⌊clampQ 0 100 raw * 100 + 1 / 2⌋, rfl⟩⟩
  · have : (0 : Int) ≤ ⌊clampQ 0 100 raw * 100 + 1 / 2⌋ :=
      Int.floor_nonneg.mpr (by nlinarith)
    positivity
  · have hfle : (⌊clampQ 0 100 raw * 100 + 1 / 2⌋ : ℚ) ≤
        clampQ 0 100 raw * 100 + 1 / 2 := Int.floor_le _
    have : (⌊clampQ 0 100 raw * 100 + 1 / 2⌋ : ℚ) ≤ 10000 + 1 / 2 := by nlinarith
    have hle : (⌊clampQ 0 100 raw * 100 + 1 / 2⌋ : Int) ≤ 10000 := by
      by_contra hcon
      push_neg at hcon
      have : ((10001 : Int) : ℚ) ≤ (⌊clampQ 0 100 raw * 100 + 1 / 2⌋ : ℚ) := by
        exact_mod_cast hcon
      linarith
    have : ((⌊clampQ 0 100 raw * 100 + 1 / 2⌋ : Int) : ℚ) ≤ 10000 := by exact_mod_cast hle
    linarith


/-- A batch append is one concatenation followed by a single trim pass
keeping the last `m` elements. -/
theorem appendBatch_eq {α : Type} (m : Nat) (prev batch : List α) :
    appendBatch m prev batch = sliceLast m (prev ++ batch) := by
  unfold appendBatch
  by_cases hlen : m < (prev ++ batch).length
  · rw [if_pos hlen]
  · rw [if_neg hlen]
    unfold sliceLast
    by_cases hm : m = 0
    · rw [if_pos hm]
    · rw [if_neg hm, Nat.sub_eq_zero_of_le (le_of_not_lt hlen), List.drop_zero]

/-- Trimming to the last `m`, appending, and trimming again equals one trim
of the full concatenation. -/
theorem sliceLast_append {α : Type} (m : Nat) (xs ys : List α) :
    sliceLast m (sliceLast m xs ++ ys) = sliceLast m (xs ++ ys) := by
  by_cases hm : m = 0
  · subst hm
    simp [sliceLast]
  · unfold sliceLast
    simp only [if_neg hm]
    rw [List.drop_append_eq_append_drop, List.drop_append_eq_append_drop,
      List.drop_drop]
    simp only [List.length_append, List.length_drop]
    have e1 : xs.length - m + (xs.length - (xs.length - m) + ys.length - m) =
        xs.length + ys.length - m := by omega
    have e2 : xs.length - (xs.length - m) + ys.length - m -
        (xs.length - (xs.length - m)) = xs.length + ys.length - m - xs.length := by
      omega
    rw [e1, e2]

theorem sliceLast_length_of_le {α : Type} {m : Nat} (hm : 0 < m) {l : List α}
    (h : m ≤ l.length) : (sliceLast m l).length = m := by
  unfold sliceLast
  rw [if_neg (Nat.pos_iff_ne_zero.mp hm)]
  simp only [List.length_drop]
  omega

theorem sliceLast_append_right {α : Type} {m : Nat} (hm : 0 < m)
    (xs ys : List α) (h : m ≤ ys.length) :
    sliceLast m (xs ++ ys) = sliceLast m ys := by
  unfold sliceLast
  rw [if_neg (Nat.pos_iff_ne_zero.mp hm), if_neg (Nat.pos_iff_ne_zero.mp hm)]
  rw [List.drop_append_eq_append_drop]
  simp only [List.length_append]
  rw [List.drop_eq_nil_of_le (by omega), List.nil_append]
  congr 1
  omega

/-- Running a non-empty sequence of batch appends keeps the last `m`
elements of the start state followed by everything appended. -/
theorem runBatches_cons {α : Type} (m : Nat) (start b : List α)
    (bs : List (List α)) :
    runBatches m start (b :: bs) = sliceLast m (start ++ (b :: bs).flatten) := by
  induction bs generalizing start b with
  | nil =>
    show appendBatch m start b = _
    rw [appendBatch_eq, List.flatten_cons, List.flatten_nil, List.append_nil]
  | cons b₂ bs ih =>
    show runBatches m (appendBatch m start b) (b₂ :: bs) = _
    rw [ih, appendBatch_eq, sliceLast_append m (start ++ b) ((b₂ :: bs).flatten)]
    simp [List.flatten_cons, List.append_assoc]

theorem length_appendBatch_le {α : Type} {m : Nat} (hm : 0 < m)
    (prev batch : List α) : (appendBatch m prev batch).length ≤ m := by
  unfold appendBatch
  by_cases h : m < (prev ++ batch).length
  · rw [if_pos h]
    rw [sliceLast_length_of_le hm (le_of_lt h)]
  · rw [if_neg h]
    omega

theorem runBatches_length_le {α : Type} {m : Nat} (hm : 0 < m)
    (start : List α) (hstart : start.length ≤ m) (bs : List (List α)) :
    (runBatches m start bs).length ≤ m := by
  induction bs generalizing start with
  | nil => exact hstart
  | cons b bs ih => exact ih _ (length_appendBatch_le hm start b)

/-- C6: starting from any valid buffer state, appending batches whose total
exceeds `maxSize` leaves the buffer equal to the last `maxSize` appended
samples in their original append order (a single trim of the joined
batches), with length exactly `maxSize`; and the invariant
`length ≤ maxSize` holds after every operation (every prefix of the batch
sequence). -/
theorem C6_bounded_buffer {α : Type} (maxSize : Nat) (start : List α)
    (batches : List (List α)) (hm : 0 < maxSize)
    (hstart : start.length ≤ maxSize)
    (hmore : maxSize < batches.flatten.length) :
    runBatches maxSize start batches = sliceLast maxSize batches.flatten ∧
    (runBatches maxSize start batches).length = maxSize ∧
    ∀ k : Nat, (runBatches maxSize start (batches.take k)).length ≤ maxSize := by
  have hjoin : maxSize ≤ batches.flatten.length := le_of_lt hmore
  obtain ⟨b, bs, rfl⟩ : ∃ b bs, batches = b :: bs := by
    cases batches with
    | nil => simp at hmore
    | cons b bs => exact ⟨b, bs, rfl⟩
  have heq : runBatches maxSize start (b :: bs) =
      sliceLast maxSize ((b :: bs).flatten) := by
    rw [runBatches_cons, sliceLast_append_right hm _ _ hjoin]
  refine ⟨heq, ?_, ?_⟩
  · rw [heq]
    exact sliceLast_length_of_le hm hjoin
  · intro k
    exact runBatches_length_le hm start hstart _

/-- Witness for C6 at a concrete start state and batch sequence. -/
theorem C6_bounded_buffer_witness :
    runBatches 2 ([0] : List Nat) [[1], [2, 3]] =
      sliceLast 2 ([[1], [2, 3]] : List (List Nat)).flatten ∧
    (runBatches 2 ([0] : List Nat) [[1], [2, 3]]).length = 2 ∧
    ∀ k : Nat,
      (runBatches 2 ([0] : List Nat) (([[1], [2, 3]] : List (List Nat)).take k)).length ≤ 2 :=
  C6_bounded_buffer 2 [0] [[1], [2, 3]] (by norm_num) (by norm_num) (by decide)

/-- Inserting a point under a key absent from the bucket map appends a new
singleton group at the end. -/
theorem insertPoint_of_not_mem (k : Int) (p : DataPoint)
    (acc : List (Int × List DataPoint)) (h : k ∉ acc.map Prod.fst) :
    insertPoint k p acc = acc ++ [(k, [p])] := by
  induction acc with
  | nil => rfl
  | cons kp rest ih =>
    obtain ⟨k₀, ps⟩ := kp
    simp only [List.map_cons, List.mem_cons, not_or] at h
    simp only [insertPoint]
    rw [if_neg (fun hh => h.1 hh.symm), ih h.2]
    rfl

/-- Inserting a point under a key already present (keys distinct) appends
the point to that key's group and leaves all other groups unchanged. -/
theorem insertPoint_of_mem (k : Int) (p : DataPoint) :
    ∀ (acc : List (Int × List DataPoint)), (acc.map Prod.fst).Nodup →
      k ∈ acc.map Prod.fst →
      insertPoint k p acc =
        acc.map (fun kp => if kp.1 = k then (kp.1, kp.2 ++ [p]) else kp) := by
  intro acc
  induction acc with
  | nil =>
    intro _ h
    simp at h
  | cons kp rest ih =>
    obtain ⟨k₀, ps⟩ := kp
    intro hnd hmem
    simp only [List.map_cons, List.nodup_cons] at hnd
    by_cases hk : k₀ = k
    · subst hk
      simp only [insertPoint, if_pos rfl, List.map_cons, if_pos]
      congr 1
      have hrest : ∀ kp ∈ rest,
          (if kp.1 = k₀ then (kp.1, kp.2 ++ [p]) else kp) = kp := by
        intro q hq
        rw [if_neg]
        intro hq1
        exact hnd.1 (by rw [← hq1]; exact List.mem_map_of_mem Prod.fst hq)
      rw [List.map_congr_left hrest]
      exact (List.map_id rest).symm
    · have hmem2 : k ∈ rest.map Prod.fst := by
        rcases List.mem_cons.mp hmem with h1 | h1
        · exact absurd h1.symm hk
        · exact h1
      simp only [insertPoint, List.map_cons]
      rw [if_neg hk, ih hnd.2 hmem2]
      simp [hk]

/-- One grouping step preserves the grouping invariant. -/
theorem goodAcc_insert (pm : Int) (processed : List DataPoint)
    (acc : List (Int × List DataPoint)) (p : DataPoint)
    (h : GoodAcc pm processed acc) :
    GoodAcc pm (processed ++ [p])
      (insertPoint (bucketKey pm p.timestamp) p acc) := by
  obtain ⟨hall, hcov, hnd⟩ := h
  have hfilter : ∀ k₁ : Int, keyFilter pm k₁ (processed ++ [p]) =
      keyFilter pm k₁ processed ++
        (if bucketKey pm p.timestamp = k₁ then [p] else []) := by
    intro k₁
    unfold keyFilter
    rw [List.filter_append]
    congr 1
    by_cases hkk : bucketKey pm p.timestamp = k₁
    · simp [List.filter_singleton, hkk]
    · simp [List.filter_singleton, hkk]
  by_cases hmem : bucketKey pm p.timestamp ∈ acc.map Prod.fst
  · rw [insertPoint_of_mem _ p acc hnd hmem]
    have hkeys : ((acc.map (fun kp =>
        if kp.1 = bucketKey pm p.timestamp then (kp.1, kp.2 ++ [p]) else kp)).map
          Prod.fst) = acc.map Prod.fst := by
      rw [List.map_map]
      refine List.map_congr_left ?_
      intro kp _
      by_cases hc : kp.1 = bucketKey pm p.timestamp <;> simp [hc]
    refine ⟨?_, ?_, ?_⟩
    · intro kp hkp
      obtain ⟨kq, hkq, rfl⟩ := List.mem_map.mp hkp
      by_cases hc : kq.1 = bucketKey pm p.timestamp
      · simp only [if_pos hc]
        constructor
        · show kq.2 ++ [p] = _
          rw [hfilter kq.1, if_pos hc.symm, ← (hall kq hkq).1]
        · simp
      · simp only [if_neg hc]
        constructor
        · rw [hfilter kq.1, if_neg (fun hh => hc hh.symm), List.append_nil]
          exact (hall kq hkq).1
        · exact (hall kq hkq).2
    · rw [hkeys]
      intro p₁ hp₁
      rcases List.mem_append.mp hp₁ with h1 | h1
      · exact hcov p₁ h1
      · rw [List.mem_singleton.mp h1]
        exact hmem
    · rw [hkeys]
      exact hnd
  · rw [insertPoint_of_not_mem _ p acc hmem]
    refine ⟨?_, ?_, ?_⟩
    · intro kp hkp
      rcases List.mem_append.mp hkp with h1 | h1
      · constructor
        · rw [hfilter kp.1, if_neg, List.append_nil]
          · exact (hall kp h1).1
          · intro hh
            exact hmem (by rw [hh]; exact List.mem_map_of_mem Prod.fst h1)
        · exact (hall kp h1).2
      · rw [List.mem_singleton.mp h1]
        constructor
        · show [p] = keyFilter pm (bucketKey pm p.timestamp) (processed ++ [p])
          rw [hfilter, if_pos rfl]
          have hempty : keyFilter pm (bucketKey pm p.timestamp) processed = [] := by
            by_contra hne
            obtain ⟨p₁, hp₁⟩ := List.exists_mem_of_ne_nil _ hne
            have hpf := List.mem_filter.mp hp₁
            have hkey : bucketKey pm p₁.timestamp = bucketKey pm p.timestamp :=
              of_decide_eq_true hpf.2
            exact hmem (hkey ▸ hcov p₁ hpf.1)
          rw [hempty, List.nil_append]
        · simp
    · intro p₁ hp₁
      rw [List.map_append]
      rcases List.mem_append.mp hp₁ with h1 | h1
      · exact List.mem_append_left _ (hcov p₁ h1)
      · rw [List.mem_singleton.mp h1]
        simp
    · rw [List.map_append, List.nodup_append]
      refine ⟨hnd, by simp, ?_⟩
      intro a ha hb
      simp only [List.map_cons, List.map_nil, List.mem_singleton] at hb
      rw [hb] at ha
      exact hmem ha

/-- The grouping fold preserves the invariant over any remaining input. -/
theorem goodAcc_fold (pm : Int) :
    ∀ (rest processed : List DataPoint) (acc : List (Int × List DataPoint)),
      GoodAcc pm processed acc →
      GoodAcc pm (processed ++ rest)
        (rest.foldl (fun a q => insertPoint (bucketKey pm q.timestamp) q a) acc) := by
  intro rest
  induction rest with
  | nil =>
    intro processed acc h
    simpa using h
  | cons q rest ih =>
    intro processed acc h
    have h2 := goodAcc_insert pm processed acc q h
    have h3 := ih (processed ++ [q]) _ h2
    rw [List.foldl_cons, List.append_cons]
    exact h3

/-- The grouping invariant holds of `groupBuckets`: every bucket holds
exactly the input points of its key in input order, non-empty; every input
point is covered; keys are distinct. -/
theorem goodAcc_groupBuckets (pm : Int) (data : List DataPoint) :
    GoodAcc pm data (groupBuckets pm data) := by
  have hbase : GoodAcc pm [] [] := by
    refine ⟨?_, ?_, ?_⟩
    · intro kp hkp
      exact absurd hkp (List.not_mem_nil kp)
    · intro p hp
      exact absurd hp (List.not_mem_nil p)
    · exact List.nodup_nil
  have hres := goodAcc_fold pm data [] [] hbase
  simpa [groupBuckets] using hres

/-- Inserting one point grows the total member count by exactly one. -/
theorem sum_insertPoint (k : Int) (p : DataPoint)
    (acc : List (Int × List DataPoint)) :
    ((insertPoint k p acc).map (fun kp => kp.2.length)).sum =
      ((acc.map (fun kp => kp.2.length)).sum) + 1 := by
  induction acc with
  | nil => simp [insertPoint]
  | cons kp rest ih =>
    obtain ⟨k₀, ps⟩ := kp
    simp only [insertPoint]
    by_cases h : k₀ = k
    · rw [if_pos h]
      simp only [List.map_cons, List.sum_cons, List.length_append,
        List.length_singleton]
      omega
    · rw [if_neg h]
      simp only [List.map_cons, List.sum_cons, ih]
      omega

/-- The total member count over all groups equals the input length. -/
theorem sum_groupBuckets (pm : Int) (data : List DataPoint) :
    ((groupBuckets pm data).map (fun kp => kp.2.length)).sum = data.length := by
  suffices h : ∀ (rest : List DataPoint) (acc : List (Int × List DataPoint)),
      (((rest.foldl (fun a q => insertPoint (bucketKey pm q.timestamp) q a)
        acc)).map (fun kp => kp.2.length)).sum =
        (acc.map (fun kp => kp.2.length)).sum + rest.length by
    simpa [groupBuckets] using h data []
  intro rest
  induction rest with
  | nil => simp
  | cons q rest ih =>
    intro acc
    rw [List.foldl_cons, ih, sum_insertPoint]
    simp only [List.length_cons]
    omega

/-- The fold of `min` over a list starting from `v` lands in `v :: vs`. -/
theorem foldlMin_fold_mem (v : ℚ) (vs : List ℚ) : vs.foldl min v ∈ v :: vs := by
  induction vs generalizing v with
  | nil => simp
  | cons w vs ih =>
    rw [List.foldl_cons]
    rcases List.mem_cons.mp (ih (min v w)) with h | h
    · rcases min_choice v w with h2 | h2 <;> rw [h, h2]
      · simp
      · simp
    · simp [List.mem_cons_of_mem, h]

/-- The fold of `min` is a lower bound of `v :: vs`. -/
theorem foldlMin_fold_le (v : ℚ) (vs : List ℚ) :
    ∀ w ∈ v :: vs, vs.foldl min v ≤ w := by
  induction vs generalizing v with
  | nil =>
    intro w hw
    rw [List.mem_singleton.mp hw]
    exact le_refl _
  | cons u vs ih =>
    intro w hw
    rw [List.foldl_cons]
    rcases List.mem_cons.mp hw with h | hw2
    · rw [h]
      exact le_trans (ih (min v u) _ (List.mem_cons_self _ _)) (min_le_left v u)
    · rcases List.mem_cons.mp hw2 with h | hw3
      · rw [h]
        exact le_trans (ih (min v u) _ (List.mem_cons_self _ _)) (min_le_right v u)
      · exact ih (min v u) w (List.mem_cons_of_mem _ hw3)

/-- The fold of `max` over a list starting from `v` lands in `v :: vs`. -/
theorem foldlMax_fold_mem (v : ℚ) (vs : List ℚ) : vs.foldl max v ∈ v :: vs := by
  induction vs generalizing v with
  | nil => simp
  | cons w vs ih =>
    rw [List.foldl_cons]
    rcases List.mem_cons.mp (ih (max v w)) with h | h
    · rcases max_choice v w with h2 | h2 <;> rw [h, h2]
      · simp
      · simp
    · simp [List.mem_cons_of_mem, h]

/-- The fold of `max` is an upper bound of `v :: vs`. -/
theorem foldlMax_fold_le (v : ℚ) (vs : List ℚ) :
    ∀ w ∈ v :: vs, w ≤ vs.foldl max v := by
  induction vs generalizing v with
  | nil =>
    intro w hw
    rw [List.mem_singleton.mp hw]
    exact le_refl _
  | cons u vs ih =>
    intro w hw
    rw [List.foldl_cons]
    rcases List.mem_cons.mp hw with h | hw2
    · rw [h]
      exact le_trans (le_max_left v u) (ih (max v u) _ (List.mem_cons_self _ _))
    · rcases List.mem_cons.mp hw2 with h | hw3
      · rw [h]
        exact le_trans (le_max_right v u) (ih (max v u) _ (List.mem_cons_self _ _))
      · exact ih (max v u) w (List.mem_cons_of_mem _ hw3)

/-- C3: for every input sequence and positive bucket width, the output of
`aggregateData` is sorted non-decreasing by bucket start timestamp, every
bucket key is `floor(timestamp / w) * w` of one of the input samples, the
member counts over all buckets sum to the input length, and the empty input
yields the empty output. -/
theorem C3_aggregate_contract (data : List DataPoint) (periodMs : Int)
    (hp : 0 < periodMs) :
    List.Sorted aggLE (aggregateData data periodMs) ∧
    (∀ b ∈ aggregateData data periodMs,
      ∃ p ∈ data, b.timestamp = bucketKey periodMs p.timestamp) ∧
    ((aggregateData data periodMs).map (fun b => b.count)).sum = data.length ∧
    aggregateData [] periodMs = [] := by
  refine ⟨?_, ?_, ?_, rfl⟩
  · cases data with
    | nil => simp [aggregateData]
    | cons x xs => exact List.sorted_insertionSort aggLE _
  · intro b hb
    cases data with
    | nil => simp [aggregateData] at hb
    | cons x xs =>
      rw [show aggregateData (x :: xs) periodMs = List.insertionSort aggLE
        ((groupBuckets periodMs (x :: xs)).map
          (fun kp => aggregateBucket kp.1 kp.2)) from rfl,
        List.mem_insertionSort] at hb
      obtain ⟨kp, hkp, rfl⟩ := List.mem_map.mp hb
      have hgood := goodAcc_groupBuckets periodMs (x :: xs)
      have h1 := hgood.1 kp hkp
      obtain ⟨p₁, hp₁⟩ := List.exists_mem_of_ne_nil _ h1.2
      rw [h1.1] at hp₁
      have hpf := List.mem_filter.mp hp₁
      refine ⟨p₁, hpf.1, ?_⟩
      show kp.1 = bucketKey periodMs p₁.timestamp
      exact (of_decide_eq_true hpf.2).symm
  · cases data with
    | nil => simp [aggregateData]
    | cons x xs =>
      rw [show aggregateData (x :: xs) periodMs = List.insertionSort aggLE
        ((groupBuckets periodMs (x :: xs)).map
          (fun kp => aggregateBucket kp.1 kp.2)) from rfl]
      have hperm := List.perm_insertionSort aggLE
        ((groupBuckets periodMs (x :: xs)).map
          (fun kp => aggregateBucket kp.1 kp.2))
      rw [(hperm.map (fun b => b.count)).sum_eq, List.map_map]
      have hcomp : ((fun b : AggPoint => b.count) ∘
          fun kp : Int × List DataPoint => aggregateBucket kp.1 kp.2) =
          fun kp : Int × List DataPoint => kp.2.length := by
        funext kp
        rfl
      rw [hcomp, sum_groupBuckets]

/-- Witness for C3 at a concrete sequence and bucket width. -/
theorem C3_aggregate_contract_witness :
    ((aggregateData [⟨0, 10, "a"⟩, ⟨500, 20, "a"⟩, ⟨1500, 40, "b"⟩] 1000).map
      (fun b => b.count)).sum =
      ([⟨0, 10, "a"⟩, ⟨500, 20, "a"⟩, ⟨1500, 40, "b"⟩] : List DataPoint).length :=
  (C3_aggregate_contract [⟨0, 10, "a"⟩, ⟨500, 20, "a"⟩, ⟨1500, 40, "b"⟩] 1000
    (by norm_num)).2.2.1

/-- C8: every bucket of `aggregateData` summarizes exactly the input samples
of its key, in input order: the exact mean `avg` is the arithmetic mean of
the member values (and the primary `value` is that mean rounded to two
decimals), `minValue`/`maxValue` are the extrema of the member values, the
representative category is the first member's, and the count is the member
count.  Moreover the concrete scenario of the claim holds: timestamps
0, 500, 1500 with values 10, 20, 40 and width 1000 yield exactly the
buckets (0, mean 15, count 2) and (1000, mean 40, count 1). -/
theorem C8_bucket_statistics (data : List DataPoint) (periodMs : Int)
    (hp : 0 < periodMs) :
    (∀ b ∈ aggregateData data periodMs,
      ∃ p₀ ps, p₀ :: ps = keyFilter periodMs b.timestamp data ∧
        b.count = (p₀ :: ps).length ∧
        b.avg = ((p₀ :: ps).map (fun p => p.value)).sum /
          (((p₀ :: ps).length : ℚ)) ∧
        b.value = round2 b.avg ∧
        b.category = p₀.category ∧
        b.minValue ∈ (p₀ :: ps).map (fun p => p.value) ∧
        (∀ v ∈ (p₀ :: ps).map (fun p => p.value), b.minValue ≤ v) ∧
        b.maxValue ∈ (p₀ :: ps).map (fun p => p.value) ∧
        (∀ v ∈ (p₀ :: ps).map (fun p => p.value), v ≤ b.maxValue)) ∧
    (aggregateData [⟨0, 10, "a"⟩, ⟨500, 20, "a"⟩, ⟨1500, 40, "b"⟩] 1000).map
        (fun b => (b.timestamp, b.value, b.count)) = [(0, 15, 2), (1000, 40, 1)] := by
  constructor
  · intro b hb
    cases data with
    | nil => simp [aggregateData] at hb
    | cons x xs =>
      rw [show aggregateData (x :: xs) periodMs = List.insertionSort aggLE
        ((groupBuckets periodMs (x :: xs)).map
          (fun kp => aggregateBucket kp.1 kp.2)) from rfl,
        List.mem_insertionSort] at hb
      obtain ⟨kp, hkp, rfl⟩ := List.mem_map.mp hb
      have hgood := goodAcc_groupBuckets periodMs (x :: xs)
      have h1 := hgood.1 kp hkp
      obtain ⟨k, pts⟩ := kp
      cases pts with
      | nil => exact absurd rfl h1.2
      | cons p₀ ps =>
        refine ⟨p₀, ps, ?_, rfl, ?_, rfl, rfl, ?_, ?_, ?_, ?_⟩
        · show p₀ :: ps = keyFilter periodMs (aggregateBucket k (p₀ :: ps)).timestamp (x :: xs)
          exact h1.1
        · show ((p₀ :: ps).map (fun p => p.value)).sum /
              ((((p₀ :: ps).map (fun p => p.value)).length : ℚ)) = _
          rw [List.length_map]
        · show foldlMin ((p₀ :: ps).map (fun p => p.value)) ∈ _
          simp only [List.map_cons, foldlMin]
          exact foldlMin_fold_mem p₀.value (ps.map (fun p => p.value))
        · show ∀ v ∈ _, foldlMin ((p₀ :: ps).map (fun p => p.value)) ≤ v
          simp only [List.map_cons, foldlMin]
          exact foldlMin_fold_le p₀.value (ps.map (fun p => p.value))
        · show foldlMax ((p₀ :: ps).map (fun p => p.value)) ∈ _
          simp only [List.map_cons, foldlMax]
          exact foldlMax_fold_mem p₀.value (ps.map (fun p => p.value))
        · show ∀ v ∈ _, v ≤ foldlMax ((p₀ :: ps).map (fun p => p.value))
          simp only [List.map_cons, foldlMax]
          exact foldlMax_fold_le p₀.value (ps.map (fun p => p.value))
  · have hk1 : bucketKey 1000 0 = 0 := by decide
    have hk2 : bucketKey 1000 500 = 0 := by decide
    have hk3 : bucketKey 1000 1500 = 1000 := by decide
    simp only [aggregateData, groupBuckets, List.foldl_cons, List.foldl_nil]
    norm_num [hk1, hk2, hk3, insertPoint, aggregateBucket, foldlMin, foldlMax,
      round2, aggLE, List.insertionSort, List.orderedInsert]

/-- Witness for C8 at the concrete scenario of the claim. -/
theorem C8_bucket_statistics_witness :
    (aggregateData [⟨0, 10, "a"⟩, ⟨500, 20, "a"⟩, ⟨1500, 40, "b"⟩] 1000).map
        (fun b => (b.timestamp, b.value, b.count)) = [(0, 15, 2), (1000, 40, 1)] :=
  (C8_bucket_statistics [⟨0, 10, "a"⟩] 1000 (by norm_num)).2

end Dashboard
